import Mathlib

/-!
Verification of the Mixed-Memory extraction/merge/assembly/resolution pipeline.

The Python sources are shallowly embedded:
* `merge_graph_data`, `extract_graph_from_chunk`, `split_text` from
  `neo4j_book2graph.py`;
* `find_best_matching_node` from `neo4j_gpt_qa.py` (the similarity function is
  a parameter, standing for the floating-point `cosine_similarity`);
* `build_r_graph`, `build_l_dict` from `build_graphs.py`.

Python dicts are modelled as insertion-ordered association lists: assigning to
an existing key updates the value in place (keeping the position of the key), a new
key is appended at the end.  Text is modelled as `List Char`.
-/

set_option autoImplicit false

/-- A node record of the node/relationship extraction shape:
`{"id": ..., "labels": [...], "properties": {...}}`. -/
structure GNode where
  id : String
  labels : List String
  properties : List (String × String)
  deriving DecidableEq, Repr

/-- A relationship record:
`{"start_node_id": ..., "end_node_id": ..., "type": ..., "properties": {...}}`. -/
structure GRel where
  start_node_id : String
  end_node_id : String
  type : String
  properties : List (String × String)
  deriving DecidableEq, Repr

/-- A candidate graph `{"nodes": [...], "relationships": [...]}`. -/
structure GGraph where
  nodes : List GNode
  relationships : List GRel
  deriving DecidableEq, Repr

/-- Python-dict assignment `merged_nodes[node["id"]] = node` on an
insertion-ordered association list keyed by `id`: an existing key keeps its
position and gets the new record, a new key is appended. -/
def dictInsert : List GNode → GNode → List GNode
  | [], n => [n]
  | x :: rest, n => if x.id == n.id then n :: rest else x :: dictInsert rest n

/-- Embedding of `merge_graph_data` (`neo4j_book2graph.py`, lines 156-173): nodes are merged
into a dict keyed by `id` (last assignment wins), relationships are
concatenated with `extend`. -/
def merge_graph_data (graph_list : List GGraph) : GGraph :=
  let merged := graph_list.foldl
    (fun acc g => (g.nodes.foldl dictInsert acc.1, acc.2 ++ g.relationships))
    ([], [])
  { nodes := merged.1, relationships := merged.2 }

/-- All node records of the input graphs, flattened in pass order. -/
def allNodes (graph_list : List GGraph) : List GNode :=
  (graph_list.map GGraph.nodes).flatten

/-- The last record carrying a given id in a list of node records. -/
def lastNodeForId : List GNode → String → Option GNode
  | [], _ => none
  | n :: rest, i =>
    match lastNodeForId rest i with
    | some m => some m
    | none => if n.id == i then some n else none

/-- The ids of a list, deduplicated keeping the first occurrence of each. -/
def firstIds (l : List String) : List String :=
  l.foldl (fun acc i => if acc.any (fun j => j == i) then acc else acc ++ [i]) []

-- Basic lemmas about `dictInsert`.

theorem find_dictInsert (m : List GNode) (n : GNode) (i : String) :
    (dictInsert m n).find? (fun x => x.id == i) =
      if n.id == i then some n else m.find? (fun x => x.id == i) := by
  induction m with
  | nil =>
    by_cases h : n.id = i
    · have hb : (n.id == i) = true := beq_iff_eq.mpr h
      simp [dictInsert, List.find?, hb]
    · have hb : (n.id == i) = false := by simp [h]
      simp [dictInsert, List.find?, hb]
  | cons x rest ih =>
    by_cases hx : x.id = n.id
    · have hxb : (x.id == n.id) = true := beq_iff_eq.mpr hx
      by_cases h : n.id = i
      · have hb : (n.id == i) = true := beq_iff_eq.mpr h
        simp [dictInsert, hxb, List.find?, hb]
      · have hb : (n.id == i) = false := by simp [h]
        have hxib : (x.id == i) = false := by simp [hx, h]
        simp [dictInsert, hxb, List.find?, hb, hxib]
    · have hxb : (x.id == n.id) = false := by simp [hx]
      by_cases hxi : x.id = i
      · have hxib : (x.id == i) = true := beq_iff_eq.mpr hxi
        have hb : (n.id == i) = false := by
          simp only [beq_eq_false_iff_ne, ne_eq]
          intro hc
          exact hx (by rw [hxi, hc])
        simp [dictInsert, hxb, List.find?, hxib, hb]
      · have hxib : (x.id == i) = false := by simp [hxi]
        simp [dictInsert, hxb, List.find?, hxib, ih]

theorem find_foldl_dictInsert (ns : List GNode) (m : List GNode) (i : String) :
    ((ns.foldl dictInsert m).find? (fun x => x.id == i)) =
      match lastNodeForId ns i with
      | some n => some n
      | none => m.find? (fun x => x.id == i) := by
  induction ns generalizing m with
  | nil => simp [lastNodeForId]
  | cons n rest ih =>
    rw [List.foldl_cons, ih, lastNodeForId]
    cases hrest : lastNodeForId rest i with
    | some k => simp
    | none =>
      rw [find_dictInsert]
      by_cases h : n.id = i <;> simp [h]

theorem merge_fold (gs : List GGraph) (m : List GNode) (rs : List GRel) :
    gs.foldl
      (fun acc g => (g.nodes.foldl dictInsert acc.1, acc.2 ++ g.relationships))
      (m, rs) =
      ((gs.map GGraph.nodes).flatten.foldl dictInsert m,
        rs ++ (gs.map GGraph.relationships).flatten) := by
  induction gs generalizing m rs with
  | nil => simp
  | cons g rest ih =>
    simp only [List.foldl_cons, ih, List.map_cons, List.flatten_cons,
      List.foldl_append, List.append_assoc]

theorem merge_nodes_eq (gs : List GGraph) :
    (merge_graph_data gs).nodes = (allNodes gs).foldl dictInsert [] := by
  simp [merge_graph_data, merge_fold, allNodes]

theorem merge_rels_eq (gs : List GGraph) :
    (merge_graph_data gs).relationships =
      (gs.map GGraph.relationships).flatten := by
  simp [merge_graph_data, merge_fold]

/-- C1: for a fixed ordered list of candidate graphs, the merged node set is
keyed by id and the record stored for any id is exactly the last-seen input
record for that id, in full.  (`merge_graph_data` is a pure function, so
repeated runs over the same input list trivially agree.) -/
theorem merge_last_seen_wins (gs : List GGraph) (i : String) :
    (merge_graph_data gs).nodes.find? (fun x => x.id == i) =
      lastNodeForId (allNodes gs) i := by
  rw [merge_nodes_eq, find_foldl_dictInsert]
  cases lastNodeForId (allNodes gs) i <;> simp

/-- C2: the merged relationship list is the in-order concatenation of the
input relationship lists; in particular its length is the sum of the input
lengths (no deduplication, no drops). -/
theorem merge_relationship_accumulation (gs : List GGraph) :
    (merge_graph_data gs).relationships =
        (gs.map GGraph.relationships).flatten ∧
      (merge_graph_data gs).relationships.length =
        (gs.map (fun g => g.relationships.length)).sum := by
  refine ⟨merge_rels_eq gs, ?_⟩
  rw [merge_rels_eq, List.length_flatten, List.map_map]
  rfl

-- Distinctness of ids in the merged node list.

/-- Ids pairwise distinct in a node list. -/
def IdsDistinct (m : List GNode) : Prop :=
  m.Pairwise (fun a b => a.id ≠ b.id)

theorem dictInsert_cons_hit {x : GNode} {n : GNode} (rest : List GNode)
    (h : x.id = n.id) : dictInsert (x :: rest) n = n :: rest := by
  simp [dictInsert, h]

theorem dictInsert_cons_miss {x : GNode} {n : GNode} (rest : List GNode)
    (h : ¬ x.id = n.id) : dictInsert (x :: rest) n = x :: dictInsert rest n := by
  simp [dictInsert, h]

theorem mem_dictInsert {y : GNode} {m : List GNode} {n : GNode}
    (h : y ∈ dictInsert m n) : y = n ∨ y ∈ m := by
  induction m with
  | nil =>
    simp [dictInsert] at h
    exact Or.inl h
  | cons x rest ih =>
    by_cases hx : x.id = n.id
    · rw [dictInsert_cons_hit rest hx] at h
      rcases List.mem_cons.mp h with h | h
      · exact Or.inl h
      · exact Or.inr (List.mem_cons_of_mem _ h)
    · rw [dictInsert_cons_miss rest hx] at h
      rcases List.mem_cons.mp h with h | h
      · right; rw [h]; exact List.mem_cons_self x rest
      · rcases ih h with h2 | h2
        · exact Or.inl h2
        · exact Or.inr (List.mem_cons_of_mem _ h2)

theorem idsDistinct_dictInsert {m : List GNode} (n : GNode)
    (h : IdsDistinct m) : IdsDistinct (dictInsert m n) := by
  induction m with
  | nil => simp [dictInsert, IdsDistinct]
  | cons x rest ih =>
    rcases List.pairwise_cons.mp h with ⟨hx, hrest⟩
    by_cases hxn : x.id = n.id
    · rw [dictInsert_cons_hit rest hxn]
      exact List.pairwise_cons.mpr ⟨fun b hb => hxn ▸ hx b hb, hrest⟩
    · rw [dictInsert_cons_miss rest hxn]
      refine List.pairwise_cons.mpr ⟨fun b hb => ?_, ih hrest⟩
      rcases mem_dictInsert hb with h2 | h2
      · exact h2 ▸ hxn
      · exact hx b h2

theorem idsDistinct_foldl_dictInsert (ns : List GNode) {m : List GNode}
    (h : IdsDistinct m) : IdsDistinct (ns.foldl dictInsert m) := by
  induction ns generalizing m with
  | nil => exact h
  | cons n rest ih => exact ih (idsDistinct_dictInsert n h)

theorem dictInsert_of_fresh {m : List GNode} {n : GNode}
    (h : ∀ x ∈ m, x.id ≠ n.id) : dictInsert m n = m ++ [n] := by
  induction m with
  | nil => rfl
  | cons x rest ih =>
    have hx : x.id ≠ n.id := h x (List.mem_cons_self x rest)
    have hxb : (x.id == n.id) = false := by simp [hx]
    simp only [dictInsert, hxb, Bool.false_eq_true, if_false, List.cons_append,
      List.cons.injEq, true_and]
    exact ih (fun y hy => h y (List.mem_cons_of_mem _ hy))

theorem foldl_dictInsert_of_distinct (ns : List GNode) :
    ∀ (m : List GNode), IdsDistinct ns →
      (∀ x ∈ m, ∀ y ∈ ns, x.id ≠ y.id) →
      ns.foldl dictInsert m = m ++ ns := by
  induction ns with
  | nil => intro m _ _; simp
  | cons n rest ih =>
    intro m hdist hdisj
    rcases List.pairwise_cons.mp hdist with ⟨hn, hrest⟩
    rw [List.foldl_cons,
      dictInsert_of_fresh (fun x hx => hdisj x hx n (List.mem_cons_self n rest)),
      ih (m ++ [n]) hrest, List.append_assoc]
    · rfl
    · intro x hx y hy
      rcases List.mem_append.mp hx with h2 | h2
      · exact hdisj x h2 y (List.mem_cons_of_mem _ hy)
      · have : x = n := by simpa using h2
        exact this ▸ hn y hy

theorem merged_idsDistinct (gs : List GGraph) :
    IdsDistinct (merge_graph_data gs).nodes := by
  rw [merge_nodes_eq]
  exact idsDistinct_foldl_dictInsert _ (by simp [IdsDistinct])

/-- C3: re-merging the already-merged graph with itself changes nothing:
`merge_graph_data [merge_graph_data gs] = merge_graph_data gs`. -/
theorem merge_idempotent (gs : List GGraph) :
    merge_graph_data [merge_graph_data gs] = merge_graph_data gs := by
  have hnodes : (merge_graph_data [merge_graph_data gs]).nodes =
      (merge_graph_data gs).nodes := by
    rw [merge_nodes_eq [merge_graph_data gs]]
    have : allNodes [merge_graph_data gs] = (merge_graph_data gs).nodes := by
      simp [allNodes]
    rw [this, foldl_dictInsert_of_distinct _ [] (merged_idsDistinct gs)
      (by intro x hx; simp at hx)]
    simp
  have hrels : (merge_graph_data [merge_graph_data gs]).relationships =
      (merge_graph_data gs).relationships := by
    rw [merge_rels_eq [merge_graph_data gs]]
    simp
  cases hm : merge_graph_data [merge_graph_data gs]
  cases hg : merge_graph_data gs
  simp_all

-- Order of the merged node list: first occurrence wins.

theorem map_id_dictInsert (m : List GNode) (n : GNode) :
    (dictInsert m n).map GNode.id =
      if (m.map GNode.id).any (fun j => j == n.id) then m.map GNode.id
      else m.map GNode.id ++ [n.id] := by
  induction m with
  | nil => simp [dictInsert]
  | cons x rest ih =>
    by_cases hx : x.id = n.id
    · have hxb : (x.id == n.id) = true := beq_iff_eq.mpr hx
      simp [dictInsert, hxb, hx]
    · have hxb : (x.id == n.id) = false := by simp [hx]
      simp only [dictInsert, hxb, Bool.false_eq_true, if_false, List.map_cons,
        List.any_cons, Bool.or_eq_true, ih]
      by_cases hr : (rest.map GNode.id).any (fun j => j == n.id) = true
      · simp [hr, hxb]
      · simp only [Bool.not_eq_true] at hr
        simp [hr, hxb]

theorem map_id_foldl_dictInsert (ns : List GNode) :
    ∀ (m : List GNode),
      ((ns.foldl dictInsert m).map GNode.id) =
        (ns.map GNode.id).foldl
          (fun acc i => if acc.any (fun j => j == i) then acc else acc ++ [i])
          (m.map GNode.id) := by
  induction ns with
  | nil => intro m; rfl
  | cons n rest ih =>
    intro m
    rw [List.foldl_cons, ih, List.map_cons, List.foldl_cons, map_id_dictInsert]

theorem find_of_mem_distinct {m : List GNode} {n : GNode}
    (hd : IdsDistinct m) (hm : n ∈ m) :
    m.find? (fun x => x.id == n.id) = some n := by
  induction m with
  | nil => cases hm
  | cons x rest ih =>
    rcases List.pairwise_cons.mp hd with ⟨hx, hrest⟩
    rcases List.mem_cons.mp hm with h | h
    · subst h
      simp [List.find?]
    · have hxn : x.id ≠ n.id := hx n h
      have hxb : (x.id == n.id) = false := by simp [hxn]
      simp only [List.find?, hxb]
      exact ih hrest h

/-- C10: the merged node list is ordered by first occurrence of each id across
the inputs, while each node record is the last-seen record for its id. -/
theorem merge_first_occurrence_order (gs : List GGraph) :
    (merge_graph_data gs).nodes.map GNode.id =
        firstIds ((allNodes gs).map GNode.id) ∧
      ∀ n ∈ (merge_graph_data gs).nodes,
        lastNodeForId (allNodes gs) n.id = some n := by
  constructor
  · rw [merge_nodes_eq, map_id_foldl_dictInsert, firstIds]
    rfl
  · intro n hn
    have h1 : (merge_graph_data gs).nodes.find? (fun x => x.id == n.id) =
        some n := find_of_mem_distinct (merged_idsDistinct gs) hn
    have h2 := find_foldl_dictInsert (allNodes gs) [] n.id
    rw [← merge_nodes_eq] at h2
    rw [h1] at h2
    cases hlast : lastNodeForId (allNodes gs) n.id with
    | none => rw [hlast] at h2; simp [List.find?] at h2
    | some k => rw [hlast] at h2; simpa using h2.symm

/-- Witness for C10 at a concrete input: two graphs where id "a" occurs in
both (content from the second wins, position from the first). -/
theorem merge_first_occurrence_order_witness :
    (⟨"a", ["Y"], []⟩ : GNode) ∈
        (merge_graph_data
          [⟨[⟨"a", ["X"], []⟩, ⟨"b", [], []⟩], []⟩, ⟨[⟨"a", ["Y"], []⟩], []⟩]).nodes ∧
      lastNodeForId
          (allNodes
            [⟨[⟨"a", ["X"], []⟩, ⟨"b", [], []⟩], []⟩, ⟨[⟨"a", ["Y"], []⟩], []⟩])
          (⟨"a", ["Y"], []⟩ : GNode).id =
        some ⟨"a", ["Y"], []⟩ :=
  ⟨by decide,
    (merge_first_occurrence_order
      [⟨[⟨"a", ["X"], []⟩, ⟨"b", [], []⟩], []⟩, ⟨[⟨"a", ["Y"], []⟩], []⟩]).2
      ⟨"a", ["Y"], []⟩ (by decide)⟩

-- Extraction aggregator (`extract_graph_from_chunk`, `neo4j_book2graph.py`,
-- lines 64-153).

/-- Embedding of `extract_graph_from_chunk`: each GPT pass is represented by its parse
outcome — `some g` when `json.loads` succeeded, `none` when it raised
`JSONDecodeError` (that pass is logged and `continue` drops it).  Successful
parses are collected into `all_graphs`; if none succeeded the function returns
`{"nodes": [], "relationships": []}`, otherwise it merges them. -/
def extract_graph_from_chunk (passResults : List (Option GGraph)) : GGraph :=
  let all_graphs := passResults.filterMap id
  if all_graphs.isEmpty then { nodes := [], relationships := [] }
  else merge_graph_data all_graphs

/-- C5: a pass whose response fails to parse is dropped without affecting the
other passes, and if every pass fails to parse the aggregator returns the
empty graph instead of raising (it is a total function of the outcomes). -/
theorem extract_graph_parse_failures (ps ps1 ps2 : List (Option GGraph)) :
    extract_graph_from_chunk (ps1 ++ none :: ps2) =
        extract_graph_from_chunk (ps1 ++ ps2) ∧
      ((∀ r ∈ ps, r = none) →
        extract_graph_from_chunk ps = { nodes := [], relationships := [] }) := by
  constructor
  · have h : (ps1 ++ none :: ps2).filterMap id = (ps1 ++ ps2).filterMap id := by
      simp [List.filterMap_append]
    simp only [extract_graph_from_chunk, h]
  · intro hall
    have h : ps.filterMap id = [] := by
      rw [List.filterMap_eq_nil_iff]
      intro a ha
      exact hall a ha
    simp [extract_graph_from_chunk, h]

/-- Witness for C5: one good pass with a failed pass interleaved, and a
chunk whose passes all fail. -/
theorem extract_graph_parse_failures_witness :
    extract_graph_from_chunk [some ⟨[⟨"a", [], []⟩], []⟩, none] =
        extract_graph_from_chunk ([some ⟨[⟨"a", [], []⟩], []⟩] ++ []) ∧
      extract_graph_from_chunk [none, none, none] =
        { nodes := [], relationships := [] } :=
  ⟨(extract_graph_parse_failures [none, none, none]
      [some ⟨[⟨"a", [], []⟩], []⟩] []).1,
    (extract_graph_parse_failures [none, none, none]
      [some ⟨[⟨"a", [], []⟩], []⟩] []).2 (by decide)⟩

-- Entity resolver (`find_best_matching_node`, `neo4j_gpt_qa.py`,
-- lines 104-123).

/-- One entry of the node-embedding index: `{"name": ..., "embedding": ...}`.
Embedding vectors are modelled with rational coordinates. -/
structure IndexItem where
  name : String
  embedding : List ℚ
  deriving DecidableEq, Repr

/-- Embedding of `find_best_matching_node`: linear scan starting from
`best_score = -1.0`, `best_name = None`, a strict `>` update, and a final
inclusive `>= threshold` test.  The similarity function `sim` is a parameter
standing for the floating-point `cosine_similarity(query_emb, item
embedding)`; the query embedding is computed once and passed in. -/
def find_best_matching_node (sim : List ℚ → List ℚ → ℚ) (query_emb : List ℚ)
    (index : List IndexItem) (threshold : ℚ) : Option String :=
  let fin := index.foldl
    (fun best item =>
      if best.1 < sim query_emb item.embedding then
        (sim query_emb item.embedding, some item.name)
      else best)
    (-1, (none : Option String))
  if threshold ≤ fin.1 then fin.2 else none

/-- The maximum of a list of scores (`none` on the empty list). -/
def listMax : List ℚ → Option ℚ
  | [] => none
  | x :: xs => some (xs.foldl max x)

/-- Specification-side resolver: compute every similarity, take the maximum,
and return the earliest entry attaining it iff the maximum reaches the
threshold (inclusive boundary). -/
def resolveSpec (sim : List ℚ → List ℚ → ℚ) (q : List ℚ)
    (index : List IndexItem) (threshold : ℚ) : Option String :=
  match listMax (index.map (fun it => sim q it.embedding)) with
  | none => none
  | some m =>
    if threshold ≤ m then
      (index.find? (fun it => sim q it.embedding == m)).map IndexItem.name
    else none

theorem foldl_max_init_le (s : IndexItem → ℚ) (l : List IndexItem) :
    ∀ b : ℚ, b ≤ l.foldl (fun a it => max a (s it)) b := by
  induction l with
  | nil => intro b; simp
  | cons it rest ih =>
    intro b
    exact le_trans (le_max_left b (s it)) (ih (max b (s it)))

theorem bestFold_spec (s : IndexItem → ℚ) (items : List IndexItem) :
    ∀ (b : ℚ) (nm : Option String),
      items.foldl
          (fun best item =>
            if best.1 < s item then (s item, some item.name) else best)
          (b, nm) =
        (items.foldl (fun a it => max a (s it)) b,
          if b < items.foldl (fun a it => max a (s it)) b then
            (items.find?
              (fun it => s it == items.foldl (fun a it => max a (s it)) b)).map
              IndexItem.name
          else nm) := by
  induction items with
  | nil => intro b nm; simp
  | cons it rest ih =>
    intro b nm
    by_cases hb : b < s it
    · have hmax : max b (s it) = s it := max_eq_right hb.le
      have hM : b < rest.foldl (fun a x => max a (s x)) (s it) :=
        lt_of_lt_of_le hb (foldl_max_init_le s rest (s it))
      rw [List.foldl_cons, List.foldl_cons, if_pos hb, ih, hmax, if_pos hM]
      by_cases hMs : s it = rest.foldl (fun a x => max a (s x)) (s it)
      · have hlt : ¬ s it < rest.foldl (fun a x => max a (s x)) (s it) := by
          rw [← hMs]; exact lt_irrefl _
        have hbeq : (s it == rest.foldl (fun a x => max a (s x)) (s it)) = true :=
          beq_iff_eq.mpr hMs
        rw [if_neg hlt]
        simp [List.find?_cons, hbeq]
      · have hlt : s it < rest.foldl (fun a x => max a (s x)) (s it) :=
          lt_of_le_of_ne (foldl_max_init_le s rest (s it)) hMs
        have hbeq : (s it == rest.foldl (fun a x => max a (s x)) (s it)) = false := by
          simp [hMs]
        rw [if_pos hlt]
        simp [List.find?_cons, hbeq]
    · have hsb : s it ≤ b := le_of_not_lt hb
      have hmax : max b (s it) = b := max_eq_left hsb
      rw [List.foldl_cons, List.foldl_cons, if_neg hb, ih, hmax]
      by_cases hbM : b < rest.foldl (fun a x => max a (s x)) b
      · have hne : (s it == rest.foldl (fun a x => max a (s x)) b) = false := by
          have : s it ≠ rest.foldl (fun a x => max a (s x)) b :=
            ne_of_lt (lt_of_le_of_lt hsb hbM)
          simp [this]
        rw [if_pos hbM, if_pos hbM]
        simp [List.find?_cons, hne]
      · rw [if_neg hbM, if_neg hbM]

/-- C4: under the (cosine-range) assumption that every similarity score is
strictly above the initial `-1.0`, the scan returns the earliest entry
attaining the maximum score iff that maximum is `≥ threshold` — i.e. it
coincides with `resolveSpec` (inclusive boundary, first-encountered
tie-break via the strict `>` update). -/
theorem resolver_threshold_boundary (sim : List ℚ → List ℚ → ℚ) (q : List ℚ)
    (index : List IndexItem) (threshold : ℚ)
    (hrange : ∀ it ∈ index, -1 < sim q it.embedding) :
    find_best_matching_node sim q index threshold =
      resolveSpec sim q index threshold := by
  cases index with
  | nil => simp [find_best_matching_node, resolveSpec, listMax]
  | cons it rest =>
    have hit : -1 < sim q it.embedding :=
      hrange it (List.mem_cons_self it rest)
    have hinit : (it :: rest).foldl
        (fun a x => max a (sim q x.embedding)) (-1) =
        rest.foldl (fun a x => max a (sim q x.embedding))
          (sim q it.embedding) := by
      rw [List.foldl_cons, max_eq_right hit.le]
    have hM : -1 < rest.foldl (fun a x => max a (sim q x.embedding))
        (sim q it.embedding) :=
      lt_of_lt_of_le hit
        (foldl_max_init_le (fun x => sim q x.embedding) rest
          (sim q it.embedding))
    have hmax : listMax ((it :: rest).map (fun x => sim q x.embedding)) =
        some (rest.foldl (fun a x => max a (sim q x.embedding))
          (sim q it.embedding)) := by
      simp only [List.map_cons, listMax, List.foldl_map]
    unfold find_best_matching_node resolveSpec
    rw [bestFold_spec (fun x => sim q x.embedding), hinit, if_pos hM, hmax]

/-- Witness for C4: scores 1/2 and 3/4 (read off the first embedding
coordinate), with the threshold exactly 3/4 (inclusive boundary). -/
theorem resolver_threshold_boundary_witness :
    (∀ it ∈ [IndexItem.mk "n1" [mkRat 1 2], IndexItem.mk "n2" [mkRat 3 4]],
        -1 < (fun _ e : List ℚ => e.headD 0) [1] it.embedding) ∧
      find_best_matching_node
          (fun _ e : List ℚ => e.headD 0) [1]
          [IndexItem.mk "n1" [mkRat 1 2], IndexItem.mk "n2" [mkRat 3 4]]
          (mkRat 3 4) =
        resolveSpec
          (fun _ e : List ℚ => e.headD 0) [1]
          [IndexItem.mk "n1" [mkRat 1 2], IndexItem.mk "n2" [mkRat 3 4]]
          (mkRat 3 4) :=
  ⟨by decide,
    resolver_threshold_boundary
      (fun _ e : List ℚ => e.headD 0) [1]
      [IndexItem.mk "n1" [mkRat 1 2], IndexItem.mk "n2" [mkRat 3 4]]
      (mkRat 3 4) (by decide)⟩

-- The boundary is inclusive: a maximum score exactly equal to the threshold
-- is returned as a match; strictly below it is not.
example :
    find_best_matching_node (fun _ e : List ℚ => e.headD 0) [1]
      [IndexItem.mk "n1" [mkRat 1 2], IndexItem.mk "n2" [mkRat 3 4]]
      (mkRat 3 4) = some "n2" := by
  decide

example :
    find_best_matching_node (fun _ e : List ℚ => e.headD 0) [1]
      [IndexItem.mk "n1" [mkRat 1 2], IndexItem.mk "n2" [mkRat 3 4]]
      (mkRat 4 5) = none := by
  decide

-- Ties are broken by first-encountered order (strict > update only).
example :
    find_best_matching_node (fun _ e : List ℚ => e.headD 0) [1]
      [IndexItem.mk "t1" [1], IndexItem.mk "t2" [1]] (mkRat 1 2) =
      some "t1" := by
  decide

-- Chunker (`split_text`, `neo4j_book2graph.py`, lines 41-61).

/-- The whitespace characters removed by Python `str.strip()` (ASCII part). -/
def pyWhitespace : List Char := [' ', '\t', '\n', '\r', '\x0b', '\x0c']

/-- Whether a character is (Python) whitespace. -/
def isWS (c : Char) : Bool := pyWhitespace.any (fun w => w == c)

/-- Python `str.strip()`: remove leading and trailing whitespace. -/
def pyStrip (l : List Char) : List Char :=
  ((l.dropWhile isWS).reverse.dropWhile isWS).reverse

/-- The paragraph separator `"\n\n"`. -/
def sepPar : List Char := ['\n', '\n']

/-- Python `text.split("\n\n")`: greedy leftmost split on the two-newline
separator. -/
def splitParas : List Char → List (List Char)
  | [] => [[]]
  | [c] => [[c]]
  | c :: c2 :: rest =>
    if c = '\n' ∧ c2 = '\n' then [] :: splitParas rest
    else
      match splitParas (c2 :: rest) with
      | [] => [[c]]
      | p :: ps => (c :: p) :: ps

/-- Rejoin a list of pieces with the paragraph separator between them. -/
def joinSep : List (List Char) → List Char
  | [] => []
  | [p] => p
  | p :: q :: ps => p ++ sepPar ++ joinSep (q :: ps)

/-- Embedding of `split_text` (`neo4j_book2graph.py`, lines 41-61): accumulate paragraphs
into a running buffer; when the next paragraph would not keep the buffer under
`max_tokens` characters, emit the stripped buffer (if non-empty) and restart
the buffer from that paragraph; emit the final stripped buffer if non-empty. -/
def split_text (text : List Char) (max_tokens : Nat) : List (List Char) :=
  let paragraphs := splitParas text
  let fin := paragraphs.foldl
    (fun (st : List (List Char) × List Char) para =>
      if st.2.length + para.length < max_tokens then
        (st.1, st.2 ++ para ++ sepPar)
      else
        ((if pyStrip st.2 = [] then st.1 else st.1 ++ [pyStrip st.2]),
          para ++ sepPar))
    ([], [])
  if pyStrip fin.2 = [] then fin.1 else fin.1 ++ [pyStrip fin.2]

/-- The non-whitespace content of a text, in order. -/
def filterNW (l : List Char) : List Char := l.filter (fun c => !isWS c)

example : splitParas ("a\n\nb".toList) = ["a".toList, "b".toList] := by decide

example : splitParas ("\n\n\n".toList) = ["".toList, "\n".toList] := by decide

example : pyStrip ("  a b\n".toList) = "a b".toList := by decide

example :
    split_text ("aa\n\nbb\n\ncc".toList) 5 =
      ["aa".toList, "bb".toList, "cc".toList] := by decide

theorem filterNW_append (a b : List Char) :
    filterNW (a ++ b) = filterNW a ++ filterNW b := by
  simp [filterNW, List.filter_append]

theorem filterNW_sepPar : filterNW sepPar = [] := by decide

theorem filterNW_dropWhile (l : List Char) :
    filterNW (l.dropWhile isWS) = filterNW l := by
  induction l with
  | nil => rfl
  | cons c rest ih =>
    rw [List.dropWhile_cons]
    by_cases h : isWS c = true
    · rw [if_pos h, ih]
      simp [filterNW, List.filter_cons, h]
    · rw [if_neg h]

theorem filterNW_reverse (l : List Char) :
    filterNW l.reverse = (filterNW l).reverse := by
  simp [filterNW, List.filter_reverse]

theorem filterNW_pyStrip (l : List Char) :
    filterNW (pyStrip l) = filterNW l := by
  unfold pyStrip
  rw [filterNW_reverse, filterNW_dropWhile, filterNW_reverse,
    filterNW_dropWhile, List.reverse_reverse]

theorem joinSep_filter (L : List (List Char)) :
    filterNW (joinSep L) = filterNW L.flatten := by
  induction L with
  | nil => rfl
  | cons p ps ih =>
    cases ps with
    | nil => simp [joinSep, filterNW]
    | cons q ps2 =>
      rw [joinSep, List.flatten_cons, filterNW_append, filterNW_append, ih,
        filterNW_sepPar, filterNW_append, List.append_nil]

theorem splitParas_ne_nil (l : List Char) : splitParas l ≠ [] := by
  match l with
  | [] => simp [splitParas]
  | [c] => simp [splitParas]
  | c :: c2 :: rest =>
    rw [splitParas]
    by_cases h : c = '\n' ∧ c2 = '\n'
    · simp [h]
    · rw [if_neg h]
      cases hsp : splitParas (c2 :: rest) <;> simp

theorem joinSep_splitParas_aux :
    ∀ (n : Nat) (l : List Char), l.length ≤ n →
      joinSep (splitParas l) = l := by
  intro n
  induction n with
  | zero =>
    intro l hl
    have h0 : l = [] := List.length_eq_zero.mp (Nat.le_zero.mp hl)
    subst h0; rfl
  | succ n ih =>
    intro l hl
    match l with
    | [] => rfl
    | [c] => rfl
    | c :: c2 :: rest =>
      simp only [List.length_cons] at hl
      rw [splitParas]
      by_cases h : c = '\n' ∧ c2 = '\n'
      · obtain ⟨h1, h2⟩ := h
        subst h1; subst h2
        have hr : joinSep (splitParas rest) = rest := ih rest (by omega)
        rw [if_pos ⟨rfl, rfl⟩]
        cases hsp : splitParas rest with
        | nil => exact absurd hsp (splitParas_ne_nil rest)
        | cons p ps =>
          rw [hsp] at hr
          rw [joinSep, hr]
          rfl
      · have hr : joinSep (splitParas (c2 :: rest)) = c2 :: rest :=
          ih (c2 :: rest) (by simp; omega)
        rw [if_neg h]
        cases hsp : splitParas (c2 :: rest) with
        | nil => exact absurd hsp (splitParas_ne_nil _)
        | cons p ps =>
          rw [hsp] at hr
          cases ps with
          | nil =>
            rw [joinSep] at hr
            simp only [joinSep]
            rw [hr]
          | cons q ps2 =>
            rw [joinSep] at hr
            simp only [joinSep]
            rw [List.cons_append, List.cons_append, hr]

theorem joinSep_splitParas (l : List Char) : joinSep (splitParas l) = l :=
  joinSep_splitParas_aux l.length l (le_refl _)

theorem chunk_fold_filter (max_tokens : Nat) (paras : List (List Char)) :
    ∀ (chunks : List (List Char)) (cur : List Char),
      filterNW
          ((paras.foldl
            (fun (st : List (List Char) × List Char) para =>
              if st.2.length + para.length < max_tokens then
                (st.1, st.2 ++ para ++ sepPar)
              else
                ((if pyStrip st.2 = [] then st.1 else st.1 ++ [pyStrip st.2]),
                  para ++ sepPar))
            (chunks, cur)).1.flatten ++
          (paras.foldl
            (fun (st : List (List Char) × List Char) para =>
              if st.2.length + para.length < max_tokens then
                (st.1, st.2 ++ para ++ sepPar)
              else
                ((if pyStrip st.2 = [] then st.1 else st.1 ++ [pyStrip st.2]),
                  para ++ sepPar))
            (chunks, cur)).2) =
        filterNW (chunks.flatten ++ cur ++ paras.flatten) := by
  induction paras with
  | nil => intro chunks cur; simp
  | cons para rest ih =>
    intro chunks cur
    simp only [List.foldl_cons]
    by_cases hlen : cur.length + para.length < max_tokens
    · rw [ih]
      simp [hlen, filterNW_append, filterNW_sepPar, List.flatten_cons,
        List.append_assoc]
    · by_cases hstrip : pyStrip cur = []
      · have hcur : filterNW cur = [] := by
          rw [← filterNW_pyStrip, hstrip]; rfl
        rw [ih]
        simp [hlen, hstrip, hcur, filterNW_append, filterNW_sepPar,
          List.flatten_cons, List.append_assoc]
      · rw [ih]
        simp [hlen, hstrip, filterNW_append, filterNW_sepPar, filterNW_pyStrip,
          List.flatten_cons, List.flatten_append, List.append_assoc]

/-- C9: rejoining the chunks produced by `split_text` with the paragraph
separator reproduces the original text up to whitespace: the non-whitespace
character sequence is preserved exactly (nothing lost, duplicated or
reordered; only whitespace at chunk boundaries may differ). -/
theorem chunk_round_trip (text : List Char) (max_tokens : Nat) :
    filterNW (joinSep (split_text text max_tokens)) = filterNW text := by
  rw [joinSep_filter]
  unfold split_text
  have hfold := chunk_fold_filter max_tokens (splitParas text) [] []
  have htext : filterNW ((splitParas text).flatten) = filterNW text := by
    rw [← joinSep_filter, joinSep_splitParas]
  by_cases hstrip :
      pyStrip ((splitParas text).foldl
        (fun (st : List (List Char) × List Char) para =>
          if st.2.length + para.length < max_tokens then
            (st.1, st.2 ++ para ++ sepPar)
          else
            ((if pyStrip st.2 = [] then st.1 else st.1 ++ [pyStrip st.2]),
              para ++ sepPar))
        ([], [])).2 = []
  · rw [if_pos hstrip]
    have hcur : filterNW (((splitParas text).foldl
        (fun (st : List (List Char) × List Char) para =>
          if st.2.length + para.length < max_tokens then
            (st.1, st.2 ++ para ++ sepPar)
          else
            ((if pyStrip st.2 = [] then st.1 else st.1 ++ [pyStrip st.2]),
              para ++ sepPar))
        ([], [])).2) = [] := by
      rw [← filterNW_pyStrip, hstrip]; rfl
    rw [filterNW_append, hcur, List.append_nil] at hfold
    simp only [List.flatten_nil, List.nil_append] at hfold
    rw [hfold, htext]
  · rw [if_neg hstrip]
    rw [List.flatten_append, filterNW_append]
    simp only [List.flatten_cons, List.flatten_nil, List.append_nil]
    rw [filterNW_pyStrip, ← filterNW_append, hfold]
    simp only [List.flatten_nil, List.nil_append] at *
    rw [← htext]

-- Graph assembler (`build_r_graph` / `build_l_dict`, `build_graphs.py`).

/-- One timed relationship fact of an R entry; each field is read with
`r.get(key, "")`, so the fields are optional. -/
structure RFact where
  time : Option String
  relationship : Option String
  event : Option String
  deriving DecidableEq, Repr

/-- One entry of the `"R"` list.  `E1`/`E2` are read with direct indexing
(`entry["E1"]`); the fact list is read with `entry.get("R", [])`. -/
structure REntry where
  E1 : String
  E2 : String
  R : Option (List RFact)
  deriving DecidableEq, Repr

/-- A multigraph edge carrying `time`, `relationship` and `event`. -/
structure REdge where
  src : String
  dst : String
  time : String
  relationship : String
  event : String
  deriving DecidableEq, Repr

/-- The networkx `MultiDiGraph` as built here: nodes are (name, type
attribute) pairs in insertion order, edges a list (parallel edges kept). -/
structure RGraph where
  nodes : List (String × String)
  edges : List REdge
  deriving DecidableEq, Repr

/-- Embedding of `G.add_node(name, type="entity")`: an existing node keeps its position
and gets the attribute (re)set; a new node is appended. -/
def addNodeList : List (String × String) → String → List (String × String)
  | [], name => [(name, "entity")]
  | p :: rest, name =>
    if p.1 == name then (p.1, "entity") :: rest else p :: addNodeList rest name

/-- The edge built from one fact: missing fields default to `""`. -/
def mkREdge (E1 E2 : String) (r : RFact) : REdge :=
  { src := E1, dst := E2, time := r.time.getD "",
    relationship := r.relationship.getD "", event := r.event.getD "" }

/-- One iteration of the fact loop: `add_node(E1)`, `add_node(E2)`,
`add_edge(E1, E2, time=..., relationship=..., event=...)`. -/
def applyFact (E1 E2 : String) (g : RGraph) (r : RFact) : RGraph :=
  { nodes := addNodeList (addNodeList g.nodes E1) E2,
    edges := g.edges ++ [mkREdge E1 E2 r] }

/-- Processing one R entry: loop over `entry.get("R", [])`. -/
def applyEntry (g : RGraph) (entry : REntry) : RGraph :=
  (entry.R.getD []).foldl (applyFact entry.E1 entry.E2) g

/-- Embedding of `build_r_graph` (`build_graphs.py`, lines 17-32). -/
def build_r_graph (entries : List REntry) : RGraph :=
  entries.foldl applyEntry { nodes := [], edges := [] }

/-- One entry of the `"L"` list; all three keys are read with direct
indexing (`entry["Label"]` etc.), so a missing key raises `KeyError`. -/
structure LEntry where
  Label : Option String
  Entity : Option String
  time : Option String
  deriving DecidableEq, Repr

/-- A (label, time) observation recorded for an entity. -/
structure LabelTime where
  label : String
  time : String
  deriving DecidableEq, Repr

/-- Embedding of `L_dict[entity].append(...)` with on-demand creation of the
entity key: an existing entity keeps its position and its list grows at the
end; a new entity is appended at the end of the dict. -/
def ldictAppend : List (String × List LabelTime) → String → LabelTime →
    List (String × List LabelTime)
  | [], ent, lt => [(ent, [lt])]
  | p :: rest, ent, lt =>
    if p.1 == ent then (p.1, p.2 ++ [lt]) :: rest
    else p :: ldictAppend rest ent lt

/-- Embedding of `build_l_dict` (`build_graphs.py`, lines 41-62): reads
`entry["Label"]`, `entry["Entity"]`, `entry["time"]` with direct indexing —
a missing key raises `KeyError`, modelled as `Except.error`. -/
def build_l_dict : List LEntry → List (String × List LabelTime) →
    Except Unit (List (String × List LabelTime))
  | [], d => .ok d
  | e :: rest, d =>
    match e.Label, e.Entity, e.time with
    | some lab, some ent, some t => build_l_dict rest (ldictAppend d ent ⟨lab, t⟩)
    | _, _, _ => .error ()

/-- The (label, time) list recorded for an entity ([] when absent). -/
def getLD (d : List (String × List LabelTime)) (ent : String) :
    List LabelTime :=
  ((d.find? (fun p => p.1 == ent)).map Prod.snd).getD []

/-- The (label, time) pair an L entry contributes to a given entity. -/
def lentryProj (ent : String) (e : LEntry) : Option LabelTime :=
  match e.Label, e.Entity, e.time with
  | some lab, some en2, some t => if en2 == ent then some ⟨lab, t⟩ else none
  | _, _, _ => none

-- Edge accounting for the R graph.

theorem factsFold_edges (E1 E2 : String) (facts : List RFact) :
    ∀ g : RGraph, (facts.foldl (applyFact E1 E2) g).edges =
      g.edges ++ facts.map (mkREdge E1 E2) := by
  induction facts with
  | nil => intro g; simp
  | cons r rest ih =>
    intro g
    rw [List.foldl_cons, ih]
    simp [applyFact, List.append_assoc]

theorem entriesFold_edges (entries : List REntry) :
    ∀ g : RGraph, (entries.foldl applyEntry g).edges =
      g.edges ++
        (entries.map
          (fun en => (en.R.getD []).map (mkREdge en.E1 en.E2))).flatten := by
  induction entries with
  | nil => intro g; simp
  | cons en rest ih =>
    intro g
    rw [List.foldl_cons, ih, applyEntry, factsFold_edges]
    simp [List.flatten_cons, List.append_assoc]

-- Node membership for the R graph.

theorem mem_addNodeList_self (ns : List (String × String)) (name : String) :
    (name, "entity") ∈ addNodeList ns name := by
  induction ns with
  | nil => simp [addNodeList]
  | cons p rest ih =>
    by_cases h : p.1 = name
    · have hb : (p.1 == name) = true := beq_iff_eq.mpr h
      simp only [addNodeList, hb, if_true]
      exact h ▸ List.mem_cons_self _ _
    · have hb : (p.1 == name) = false := by simp [h]
      simp only [addNodeList, hb, Bool.false_eq_true, if_false]
      exact List.mem_cons_of_mem _ ih

theorem mem_addNodeList_of_mem {ns : List (String × String)} {m : String}
    (name : String) (h : (m, "entity") ∈ ns) :
    (m, "entity") ∈ addNodeList ns name := by
  induction ns with
  | nil => cases h
  | cons p rest ih =>
    by_cases hp : p.1 = name
    · have hb : (p.1 == name) = true := beq_iff_eq.mpr hp
      simp only [addNodeList, hb, if_true]
      rcases List.mem_cons.mp h with h2 | h2
      · have : p.1 = m := by rw [← h2]
        exact this ▸ List.mem_cons_self _ _
      · exact List.mem_cons_of_mem _ h2
    · have hb : (p.1 == name) = false := by simp [hp]
      simp only [addNodeList, hb, Bool.false_eq_true, if_false]
      rcases List.mem_cons.mp h with h2 | h2
      · exact h2 ▸ List.mem_cons_self _ _
      · exact List.mem_cons_of_mem _ (ih h2)

theorem mem_applyFact_of_mem {g : RGraph} {m : String} (E1 E2 : String)
    (r : RFact) (h : (m, "entity") ∈ g.nodes) :
    (m, "entity") ∈ (applyFact E1 E2 g r).nodes :=
  mem_addNodeList_of_mem E2 (mem_addNodeList_of_mem E1 h)

theorem mem_factsFold_of_mem {m : String} (E1 E2 : String)
    (facts : List RFact) :
    ∀ {g : RGraph}, (m, "entity") ∈ g.nodes →
      (m, "entity") ∈ (facts.foldl (applyFact E1 E2) g).nodes := by
  induction facts with
  | nil => intro g h; exact h
  | cons r rest ih =>
    intro g h
    exact ih (mem_applyFact_of_mem E1 E2 r h)

theorem mem_entriesFold_of_mem {m : String} (entries : List REntry) :
    ∀ {g : RGraph}, (m, "entity") ∈ g.nodes →
      (m, "entity") ∈ (entries.foldl applyEntry g).nodes := by
  induction entries with
  | nil => intro g h; exact h
  | cons en rest ih =>
    intro g h
    exact ih (mem_factsFold_of_mem en.E1 en.E2 (en.R.getD []) h)

theorem factsFold_endpoints (E1 E2 : String) (facts : List RFact)
    (hne : facts ≠ []) (g : RGraph) :
    (E1, "entity") ∈ (facts.foldl (applyFact E1 E2) g).nodes ∧
      (E2, "entity") ∈ (facts.foldl (applyFact E1 E2) g).nodes := by
  cases facts with
  | nil => exact absurd rfl hne
  | cons r rest =>
    rw [List.foldl_cons]
    constructor
    · exact mem_factsFold_of_mem E1 E2 rest
        (mem_addNodeList_of_mem E2 (mem_addNodeList_self g.nodes E1))
    · exact mem_factsFold_of_mem E1 E2 rest
        (mem_addNodeList_self (addNodeList g.nodes E1) E2)

theorem entriesFold_endpoints (entries : List REntry) :
    ∀ (g : RGraph) (en : REntry), en ∈ entries → en.R.getD [] ≠ [] →
      (en.E1, "entity") ∈ (entries.foldl applyEntry g).nodes ∧
        (en.E2, "entity") ∈ (entries.foldl applyEntry g).nodes := by
  induction entries with
  | nil => intro g en h; cases h
  | cons en2 rest ih =>
    intro g en hmem hne
    rw [List.foldl_cons]
    rcases List.mem_cons.mp hmem with h | h
    · subst h
      obtain ⟨h1, h2⟩ := factsFold_endpoints en.E1 en.E2 (en.R.getD []) hne g
      exact ⟨mem_entriesFold_of_mem rest h1, mem_entriesFold_of_mem rest h2⟩
    · exact ih (applyEntry g en2) en h hne

theorem entriesFold_edge_endpoints (entries : List REntry) :
    ∀ (g : RGraph),
      (∀ e ∈ g.edges, (e.src, "entity") ∈ g.nodes ∧
        (e.dst, "entity") ∈ g.nodes) →
      ∀ e ∈ (entries.foldl applyEntry g).edges,
        (e.src, "entity") ∈ (entries.foldl applyEntry g).nodes ∧
          (e.dst, "entity") ∈ (entries.foldl applyEntry g).nodes := by
  induction entries with
  | nil => intro g hg; exact hg
  | cons en rest ih =>
    intro g hg
    rw [List.foldl_cons]
    refine ih (applyEntry g en) ?_
    -- the invariant is preserved by one entry (its inner fact loop)
    have : ∀ (facts : List RFact) (g2 : RGraph),
        (∀ e ∈ g2.edges, (e.src, "entity") ∈ g2.nodes ∧
          (e.dst, "entity") ∈ g2.nodes) →
        ∀ e ∈ (facts.foldl (applyFact en.E1 en.E2) g2).edges,
          (e.src, "entity") ∈ (facts.foldl (applyFact en.E1 en.E2) g2).nodes ∧
            (e.dst, "entity") ∈
              (facts.foldl (applyFact en.E1 en.E2) g2).nodes := by
      intro facts
      induction facts with
      | nil => intro g2 hg2; exact hg2
      | cons r frest fih =>
        intro g2 hg2
        rw [List.foldl_cons]
        refine fih (applyFact en.E1 en.E2 g2 r) ?_
        intro e he
        have hmem : e ∈ g2.edges ++ [mkREdge en.E1 en.E2 r] := he
        rcases List.mem_append.mp hmem with h2 | h2
        · obtain ⟨hs, hd⟩ := hg2 e h2
          exact ⟨mem_applyFact_of_mem en.E1 en.E2 r hs,
            mem_applyFact_of_mem en.E1 en.E2 r hd⟩
        · have he2 : e = mkREdge en.E1 en.E2 r := by simpa using h2
          subst he2
          constructor
          · exact mem_addNodeList_of_mem en.E2
              (mem_addNodeList_self g2.nodes en.E1)
          · exact mem_addNodeList_self (addNodeList g2.nodes en.E1) en.E2
    exact this (en.R.getD []) g hg

/-- C8 counterexample: an R entry whose fact list is empty produces no nodes
at all — the endpoints are only materialized inside the per-fact loop, so the
claim "the built R-graph contains both E1 and E2 as nodes" fails for an entry
with zero facts. -/
theorem build_r_graph_empty_facts_counterexample :
    (build_r_graph [⟨"A", "B", some []⟩]).nodes = [] ∧
      ¬ ("A", "entity") ∈ (build_r_graph [⟨"A", "B", some []⟩]).nodes := by
  decide

/-- C8 (amended): for every R entry with at least one fact, both endpoints
are materialized as entity nodes; the edge list is exactly one edge per fact,
in order, carrying the time/relationship/event of the fact (defaulting to `""`);
and the endpoints of every edge exist as nodes in the final graph. -/
theorem build_r_graph_spec (entries : List REntry) :
    ((build_r_graph entries).edges =
        (entries.map
          (fun en => (en.R.getD []).map (mkREdge en.E1 en.E2))).flatten) ∧
      (∀ e ∈ (build_r_graph entries).edges,
        (e.src, "entity") ∈ (build_r_graph entries).nodes ∧
          (e.dst, "entity") ∈ (build_r_graph entries).nodes) ∧
      (∀ en ∈ entries, en.R.getD [] ≠ [] →
        (en.E1, "entity") ∈ (build_r_graph entries).nodes ∧
          (en.E2, "entity") ∈ (build_r_graph entries).nodes) := by
  refine ⟨?_, ?_, ?_⟩
  · rw [build_r_graph, entriesFold_edges]
    rfl
  · exact entriesFold_edge_endpoints entries { nodes := [], edges := [] }
      (by intro e he; cases he)
  · intro en hmem hne
    exact entriesFold_endpoints entries { nodes := [], edges := [] } en hmem hne

/-- Witness for C8 (amended) at a concrete entry with one fact. -/
theorem build_r_graph_spec_witness :
    ("A", "entity") ∈
        (build_r_graph
          [⟨"A", "B", some [⟨some "t", some "met", none⟩]⟩]).nodes ∧
      ("B", "entity") ∈
        (build_r_graph
          [⟨"A", "B", some [⟨some "t", some "met", none⟩]⟩]).nodes :=
  (build_r_graph_spec [⟨"A", "B", some [⟨some "t", some "met", none⟩]⟩]).2.2
    ⟨"A", "B", some [⟨some "t", some "met", none⟩]⟩ (by decide) (by decide)

-- The scenario from the specification: one R entry with one complete fact
-- gives two entity nodes and one edge with relationship "met".
example :
    build_r_graph
        [⟨"Alice", "Bob", some [⟨some "2024-01", some "met", some "e"⟩]⟩] =
      { nodes := [("Alice", "entity"), ("Bob", "entity")],
        edges := [⟨"Alice", "Bob", "2024-01", "met", "e"⟩] } := by
  decide

-- The L dictionary.

theorem build_l_dict_error_of_missing (les : List LEntry) :
    ∀ (e : LEntry), e ∈ les →
      (e.Label = none ∨ e.Entity = none ∨ e.time = none) →
      ∀ d, build_l_dict les d = .error () := by
  induction les with
  | nil => intro e h; cases h
  | cons e2 rest ih =>
    intro e hmem hmiss d
    rcases List.mem_cons.mp hmem with h | h
    · subst h
      obtain ⟨L, E, t⟩ := e
      cases L <;> cases E <;> cases t <;>
        first
          | rfl
          | (rcases hmiss with h2 | h2 | h2 <;> simp at h2)
    · obtain ⟨L2, E2, t2⟩ := e2
      cases L2 <;> cases E2 <;> cases t2 <;>
        first
          | rfl
          | exact ih e h hmiss _

/-- C6 counterexample: an L entry with a missing `time` key makes
`build_l_dict` raise (`KeyError` from `entry["time"]`), contrary to the
claim that a missing field in an L entry does not make the assembler raise. -/
theorem build_l_dict_missing_field_raises :
    build_l_dict [⟨some "Person", some "Alice", none⟩] [] = .error () := by
  rfl

/-- C6 (amended): an R-entry fact lacking `time`, `relationship` or `event`
yields an edge with that attribute set to `""` (the `r.get(key, "")`
defaults), without failing; but an L entry missing `Label`, `Entity` or
`time` — all read with direct indexing — makes `build_l_dict` raise
`KeyError` instead of defaulting. -/
theorem missing_field_defaults (entries : List REntry) (les : List LEntry) :
    ((build_r_graph entries).edges =
        (entries.map
          (fun en => (en.R.getD []).map (mkREdge en.E1 en.E2))).flatten) ∧
      ((∃ e ∈ les, e.Label = none ∨ e.Entity = none ∨ e.time = none) →
        ∀ d, build_l_dict les d = .error ()) := by
  constructor
  · rw [build_r_graph, entriesFold_edges]
    rfl
  · intro hex d
    obtain ⟨e, hmem, hmiss⟩ := hex
    exact build_l_dict_error_of_missing les e hmem hmiss d

/-- Witness for C6 (amended): a fact with every optional field missing gives
an edge whose attributes are all `""`; an L entry missing `time` raises. -/
theorem missing_field_defaults_witness :
    ((build_r_graph [⟨"A", "B", some [⟨none, none, none⟩]⟩]).edges =
        ([[⟨"A", "B", "", "", ""⟩]] : List (List REdge)).flatten) ∧
      build_l_dict [⟨some "Person", some "Alice", none⟩] [] = .error () :=
  ⟨(missing_field_defaults [⟨"A", "B", some [⟨none, none, none⟩]⟩] []).1,
    (missing_field_defaults [] [⟨some "Person", some "Alice", none⟩]).2
      ⟨⟨some "Person", some "Alice", none⟩, by decide,
        Or.inr (Or.inr rfl)⟩ []⟩

theorem getLD_ldictAppend (d : List (String × List LabelTime))
    (ent0 ent : String) (lt : LabelTime) :
    getLD (ldictAppend d ent0 lt) ent =
      if ent0 = ent then getLD d ent ++ [lt] else getLD d ent := by
  induction d with
  | nil =>
    by_cases h : ent0 = ent
    · subst h
      simp [ldictAppend, getLD, List.find?]
    · have hb : (ent0 == ent) = false := by simp [h]
      simp [ldictAppend, getLD, List.find?, hb, h]
  | cons p rest ih =>
    by_cases hp : p.1 = ent0
    · have hpb : (p.1 == ent0) = true := beq_iff_eq.mpr hp
      by_cases h : ent0 = ent
      · have hpe : (p.1 == ent) = true := beq_iff_eq.mpr (hp.trans h)
        simp [ldictAppend, getLD, List.find?, hpb, hpe, h]
      · have hpe : (p.1 == ent) = false := by
          simp only [beq_eq_false_iff_ne, ne_eq]
          intro hc; exact h (by rw [← hp, hc])
        simp [ldictAppend, getLD, List.find?, hpb, hpe, h]
    · have hpb : (p.1 == ent0) = false := by simp [hp]
      by_cases hpe : p.1 = ent
      · have hpeb : (p.1 == ent) = true := beq_iff_eq.mpr hpe
        have h : ent0 ≠ ent := by
          intro hc; exact hp (by rw [hc, ← hpe])
        simp [ldictAppend, getLD, List.find?, hpb, hpeb, h]
      · have hpeb : (p.1 == ent) = false := by simp [hpe]
        have hcons : ∀ X, getLD (p :: X) ent = getLD X ent := by
          intro X
          simp [getLD, List.find?, hpeb]
        simp only [ldictAppend, hpb, Bool.false_eq_true, if_false]
        rw [hcons (ldictAppend rest ent0 lt), hcons rest]
        exact ih

theorem build_l_dict_ok_aux : ∀ (les : List LEntry),
    (∀ e ∈ les, e.Label.isSome ∧ e.Entity.isSome ∧ e.time.isSome) →
    ∀ d0, ∃ d, build_l_dict les d0 = .ok d ∧
      ∀ ent, getLD d ent = getLD d0 ent ++ les.filterMap (lentryProj ent) := by
  intro les
  induction les with
  | nil =>
    intro _ d0
    exact ⟨d0, rfl, fun ent => by simp⟩
  | cons e rest ih =>
    intro hw d0
    obtain ⟨hL, hE, ht⟩ := hw e (List.mem_cons_self e rest)
    obtain ⟨lab, hlab⟩ := Option.isSome_iff_exists.mp hL
    obtain ⟨ent0, hent⟩ := Option.isSome_iff_exists.mp hE
    obtain ⟨t, htm⟩ := Option.isSome_iff_exists.mp ht
    have hw2 : ∀ x ∈ rest, x.Label.isSome ∧ x.Entity.isSome ∧ x.time.isSome :=
      fun x hx => hw x (List.mem_cons_of_mem _ hx)
    obtain ⟨d, hd, hchar⟩ := ih hw2 (ldictAppend d0 ent0 ⟨lab, t⟩)
    refine ⟨d, ?_, ?_⟩
    · simp [build_l_dict, hlab, hent, htm, hd]
    · intro ent
      rw [hchar ent, getLD_ldictAppend]
      by_cases h : ent0 = ent
      · have hb : (ent0 == ent) = true := beq_iff_eq.mpr h
        simp [lentryProj, hlab, hent, htm, hb, h, List.filterMap_cons,
          List.append_assoc]
      · have hb : (ent0 == ent) = false := by simp [h]
        simp [lentryProj, hlab, hent, htm, hb, h, List.filterMap_cons]

/-- C7: for well-formed L entries, the list recorded for each entity is
exactly the in-order sequence of (label, time) pairs contributed by that
entries of that entity — insertion order preserved, duplicates kept. -/
theorem l_dict_label_order (les : List LEntry)
    (hw : ∀ e ∈ les, e.Label.isSome ∧ e.Entity.isSome ∧ e.time.isSome) :
    ∃ d, build_l_dict les [] = .ok d ∧
      ∀ ent, getLD d ent = les.filterMap (lentryProj ent) := by
  obtain ⟨d, hd, hchar⟩ := build_l_dict_ok_aux les hw []
  refine ⟨d, hd, fun ent => ?_⟩
  have h0 : getLD [] ent = [] := rfl
  rw [hchar ent, h0, List.nil_append]

/-- Witness for C7: entries [(A,Person,t1), (A,Instructor,t2), (A,Person,t1)]
— the amended list keeps order and the exact duplicate. -/
theorem l_dict_label_order_witness :
    (∀ e ∈ [LEntry.mk (some "Person") (some "A") (some "t1"),
        LEntry.mk (some "Instructor") (some "A") (some "t2"),
        LEntry.mk (some "Person") (some "A") (some "t1")],
      e.Label.isSome ∧ e.Entity.isSome ∧ e.time.isSome) ∧
      ∃ d, build_l_dict
          [LEntry.mk (some "Person") (some "A") (some "t1"),
            LEntry.mk (some "Instructor") (some "A") (some "t2"),
            LEntry.mk (some "Person") (some "A") (some "t1")] [] = .ok d ∧
        ∀ ent, getLD d ent =
          [LEntry.mk (some "Person") (some "A") (some "t1"),
            LEntry.mk (some "Instructor") (some "A") (some "t2"),
            LEntry.mk (some "Person") (some "A") (some "t1")].filterMap
            (lentryProj ent) :=
  ⟨by decide,
    l_dict_label_order
      [LEntry.mk (some "Person") (some "A") (some "t1"),
        LEntry.mk (some "Instructor") (some "A") (some "t2"),
        LEntry.mk (some "Person") (some "A") (some "t1")] (by decide)⟩

-- Concretely: order and the exact duplicate are preserved.
example :
    build_l_dict
        [LEntry.mk (some "Person") (some "A") (some "t1"),
          LEntry.mk (some "Instructor") (some "A") (some "t2"),
          LEntry.mk (some "Person") (some "A") (some "t1")] [] =
      .ok [("A", [⟨"Person", "t1"⟩, ⟨"Instructor", "t2"⟩,
        ⟨"Person", "t1"⟩])] := by
  rfl
